import Mathlib

/-!
# Verification of the terrain-to-3d heightmap pipeline

Shallow embedding of the geospatial raster pipeline of `src/lib/openscad.ts`
(tile math, Terrarium decoding, stitching, cropping, normalization) and of the
`.dat` serializer `heightmapToDat`.  Elevations and geographic coordinates that
the JavaScript code holds in IEEE doubles are modelled as exact rationals `ℚ`
(every finite double is a rational); the JavaScript infinities used to seed the
running minimum / maximum are modelled by `WithTop ℚ` / `WithBot ℚ`.  The four
web-mercator projection functions use transcendental functions and are modelled
over `ℝ`.
-/

namespace Terrain

/-- JavaScript `Math.round` on an exact rational: round half toward positive
infinity, i.e. `⌊x + 1/2⌋`. -/
def jsRound (q : ℚ) : ℤ := ⌊q + 1/2⌋

/-! ## Terrarium tile decoding (`fetchAndDecodeTile`, decode loop)

The source walks the flat RGBA array `data` with `off = i * 4` and sets
`elev[i] = data[off] * 256 + data[off + 1] + data[off + 2] / 256 - 32768`. -/

/-- One decoded elevation sample from the flat RGBA byte array, exactly as the
loop body of `fetchAndDecodeTile` computes it. -/
def decodeSample (data : ℕ → ℕ) (i : ℕ) : ℚ :=
  (data (i * 4) : ℚ) * 256 + (data (i * 4 + 1) : ℚ) + (data (i * 4 + 2) : ℚ) / 256 - 32768

/-- The dense elevation grid produced by the decode loop of
`fetchAndDecodeTile`: one sample per pixel, `width * height` samples. -/
def decodeTile (data : ℕ → ℕ) (width height : ℕ) : List ℚ :=
  (List.range (width * height)).map (decodeSample data)

/-- The spec's Terrarium relation, from its words: given the three color
channels of one pixel, `elevation = R*256 + G + B/256 - 32768`. -/
def terrariumSpec (R G B : ℕ) : ℚ :=
  (R : ℚ) * 256 + (G : ℚ) + (B : ℚ) / 256 - 32768

/-! ## Normalization (`generateHeightmap`, normalize loop)

Source:
```
const range = hi - lo || 1;
const u8 = new Uint8Array(cw * ch);
for (let i = 0; i < cropped.length; i++) {
  u8[i] = Math.round(((cropped[i] - lo) / range) * 255);
}
```
`hi - lo || 1` substitutes `1` exactly when `hi - lo` is zero; storing into a
`Uint8Array` reduces the integer modulo 256. -/

/-- One normalized 8-bit sample as stored into the `Uint8Array` by the
normalization loop of `generateHeightmap`. -/
def normalizeSample (lo hi v : ℚ) : ℤ :=
  let range : ℚ := if hi - lo = 0 then 1 else hi - lo
  jsRound ((v - lo) / range * 255) % 256

/-- The normalized 8-bit grid of the cropped raster. -/
def normalizeU8 (cropped : List ℚ) (lo hi : ℚ) : List ℤ :=
  cropped.map (normalizeSample lo hi)

/-- Clamp `x` into `[a, b]`, from the spec's words. -/
def clamp (x a b : ℚ) : ℚ := max a (min b x)

/-- The spec's normalization formula, from its words:
`round(clamp((v - elevMin) / max(elevMax - elevMin, ε), 0, 1) * 255)`. -/
def normalizeSpec (lo hi eps v : ℚ) : ℤ :=
  jsRound (clamp ((v - lo) / max (hi - lo) eps) 0 1 * 255)

/-! ## `.dat` serialization (`heightmapToDat` in the OpenSCAD glue module)

Source loops `y` from `height - 1` down to `0`, pushing one space-joined row
per line, and joins the lines with newlines plus a trailing newline. -/

/-- The rows of the `.dat` text, in output order: the downward loop over `y`
is the reverse of `List.range height`. -/
def datRows (hm : ℕ → ℤ) (width height : ℕ) : List (List ℤ) :=
  (List.range height).reverse.map (fun y =>
    (List.range width).map (fun x => hm (y * width + x)))

/-- The `.dat` text: rows joined by spaces, lines joined by newlines, plus a
trailing newline, as in `heightmapToDat`. -/
def heightmapToDat (hm : ℕ → ℤ) (width height : ℕ) : String :=
  String.intercalate "\n"
    ((datRows hm width height).map (fun row =>
      String.intercalate " " (row.map toString))) ++ "\n"

/-! ## Helper lemmas about `jsRound` and normalization -/

lemma jsRound_zero : jsRound 0 = 0 := by norm_num [jsRound]

lemma jsRound_255 : jsRound 255 = 255 := by norm_num [jsRound]

lemma jsRound_nonneg {q : ℚ} (h : 0 ≤ q) : 0 ≤ jsRound q := by
  rw [jsRound, Int.le_floor]
  push_cast
  linarith

lemma jsRound_le_255 {q : ℚ} (h : q ≤ 255) : jsRound q ≤ 255 := by
  have : jsRound q < 256 := by
    rw [jsRound, Int.floor_lt]
    push_cast
    linarith
  omega

lemma ratio_nonneg {lo hi v : ℚ} (h1 : lo ≤ v) (hlt : lo < hi) :
    0 ≤ (v - lo) / (hi - lo) * 255 := by
  have hd : 0 < hi - lo := by linarith
  have := div_nonneg (by linarith : (0 : ℚ) ≤ v - lo) hd.le
  linarith

lemma ratio_le_255 {lo hi v : ℚ} (h2 : v ≤ hi) (hlt : lo < hi) :
    (v - lo) / (hi - lo) * 255 ≤ 255 := by
  have hd : 0 < hi - lo := by linarith
  have hr : (v - lo) / (hi - lo) ≤ 1 := by
    rw [div_le_one hd]
    linarith
  nlinarith

/-- In the non-degenerate case the stored byte is the rounded ratio itself:
the `Uint8Array` modulo-256 reduction is the identity on it. -/
lemma normalizeSample_of_lt {lo hi : ℚ} (v : ℚ) (h1 : lo ≤ v) (h2 : v ≤ hi)
    (hlt : lo < hi) :
    normalizeSample lo hi v = jsRound ((v - lo) / (hi - lo) * 255) := by
  have hne : hi - lo ≠ 0 := by intro h; linarith [sub_eq_zero.mp h]
  have h0 : 0 ≤ jsRound ((v - lo) / (hi - lo) * 255) :=
    jsRound_nonneg (ratio_nonneg h1 hlt)
  have h255 : jsRound ((v - lo) / (hi - lo) * 255) ≤ 255 :=
    jsRound_le_255 (ratio_le_255 h2 hlt)
  have hunfold : normalizeSample lo hi v
      = jsRound ((v - lo) / (if hi - lo = 0 then 1 else hi - lo) * 255) % 256 := rfl
  rw [hunfold, if_neg hne]
  exact Int.emod_eq_of_lt h0 (by omega)

/-- In the degenerate flat case every sample is stored as `0`. -/
lemma normalizeSample_flat {lo hi : ℚ} (v : ℚ) (h1 : lo ≤ v) (h2 : v ≤ hi)
    (hflat : hi = lo) :
    normalizeSample lo hi v = 0 := by
  have hv : v = lo := by linarith
  rw [normalizeSample]
  subst hflat hv
  norm_num [jsRound]

lemma normalizeSample_eq_spec {lo hi eps : ℚ} (v : ℚ) (h1 : lo ≤ v) (h2 : v ≤ hi)
    (heps : 0 < eps) (hg : hi = lo ∨ eps ≤ hi - lo) :
    normalizeSample lo hi v = normalizeSpec lo hi eps v := by
  rcases hg with hflat | hge
  · have hv : v = lo := by linarith
    rw [normalizeSample_flat v h1 h2 hflat, normalizeSpec, clamp]
    subst hflat hv
    rw [sub_self, zero_div, min_comm]
    norm_num [jsRound]
  · have hlt : lo < hi := by linarith
    have hd : 0 < hi - lo := by linarith
    rw [normalizeSample_of_lt v h1 h2 hlt, normalizeSpec, clamp]
    have hmax : max (hi - lo) eps = hi - lo := max_eq_left hge
    have hr0 : 0 ≤ (v - lo) / (hi - lo) :=
      div_nonneg (by linarith) hd.le
    have hr1 : (v - lo) / (hi - lo) ≤ 1 := by
      rw [div_le_one hd]; linarith
    rw [hmax, min_eq_right hr1, max_eq_right hr0]

lemma normalizeSample_bounds {lo hi : ℚ} (v : ℚ) (h1 : lo ≤ v) (h2 : v ≤ hi) :
    0 ≤ normalizeSample lo hi v ∧ normalizeSample lo hi v ≤ 255 := by
  rcases eq_or_lt_of_le (le_trans h1 h2) with hflat | hlt
  · rw [normalizeSample_flat v h1 h2 hflat.symm]
    omega
  · rw [normalizeSample_of_lt v h1 h2 hlt]
    exact ⟨jsRound_nonneg (ratio_nonneg h1 hlt),
      jsRound_le_255 (ratio_le_255 h2 hlt)⟩

/-- C1: the normalizer maps each cropped value `v` to
`round(clamp((v - elevMin) / max(elevMax - elevMin, ε), 0, 1) * 255)` (for any
guard `ε` with `0 < ε` that is inert outside the flat case); consequently every
normalized value lies in `[0, 255]`, every pixel equal to `elevMin` maps to `0`,
every pixel equal to `elevMax` maps to `255` when the range is non-degenerate,
and when `elevMin = elevMax` all pixels map to the one constant value `0`. -/
theorem C1_normalizer (cropped : List ℚ) (lo hi eps : ℚ)
    (hlb : ∀ v ∈ cropped, lo ≤ v) (hub : ∀ v ∈ cropped, v ≤ hi)
    (heps : 0 < eps) (hg : hi = lo ∨ eps ≤ hi - lo) :
    normalizeU8 cropped lo hi = cropped.map (normalizeSpec lo hi eps)
    ∧ (∀ u ∈ normalizeU8 cropped lo hi, 0 ≤ u ∧ u ≤ 255)
    ∧ (∀ v ∈ cropped, v = lo → normalizeSample lo hi v = 0)
    ∧ (lo < hi → ∀ v ∈ cropped, v = hi → normalizeSample lo hi v = 255)
    ∧ (hi = lo → ∀ v ∈ cropped, normalizeSample lo hi v = 0) := by
  refine ⟨?_, ?_, ?_, ?_, ?_⟩
  · rw [normalizeU8]
    exact List.map_congr_left fun v hv =>
      normalizeSample_eq_spec v (hlb v hv) (hub v hv) heps hg
  · intro u hu
    rw [normalizeU8, List.mem_map] at hu
    obtain ⟨v, hv, rfl⟩ := hu
    exact normalizeSample_bounds v (hlb v hv) (hub v hv)
  · intro v hv hveq
    rcases eq_or_lt_of_le (le_trans (hlb v hv) (hub v hv)) with hflat | hlt
    · exact normalizeSample_flat v (hlb v hv) (hub v hv) hflat.symm
    · rw [normalizeSample_of_lt v (hlb v hv) (hub v hv) hlt, hveq, sub_self,
        zero_div, zero_mul, jsRound_zero]
  · intro hlt v hv hveq
    have hne : hi - lo ≠ 0 := by intro h; linarith [sub_eq_zero.mp h]
    rw [normalizeSample_of_lt v (hlb v hv) (hub v hv) hlt, hveq, div_self hne,
      one_mul, jsRound_255]
  · intro hflat v hv
    exact normalizeSample_flat v (hlb v hv) (hub v hv) hflat

/-- Witness for C1 at a concrete cropped raster `[1, 3, 2]` with
`lo = 1`, `hi = 3`, `ε = 1/2`. -/
theorem C1_normalizer_witness :
    ((∀ v ∈ [(1 : ℚ), 3, 2], (1 : ℚ) ≤ v) ∧ (∀ v ∈ [(1 : ℚ), 3, 2], v ≤ 3)
      ∧ (0 : ℚ) < 1/2 ∧ ((3 : ℚ) = 1 ∨ (1 : ℚ)/2 ≤ 3 - 1))
    ∧ normalizeU8 [(1 : ℚ), 3, 2] 1 3 =
        [(1 : ℚ), 3, 2].map (normalizeSpec 1 3 (1/2)) :=
  ⟨⟨by decide, by decide, by norm_num, Or.inr (by norm_num)⟩,
    (C1_normalizer [(1 : ℚ), 3, 2] 1 3 (1/2) (by decide) (by decide)
      (by norm_num) (Or.inr (by norm_num))).1⟩

/-- C3: each pixel's color channels decode to
`elevation = R*256 + G + B/256 - 32768`, independently per pixel, yielding a
dense grid with one elevation per pixel of the tile. -/
theorem C3_terrarium_decode (data : ℕ → ℕ) (width height : ℕ) :
    (decodeTile data width height).length = width * height
    ∧ ∀ i < width * height,
        (decodeTile data width height)[i]? =
          some (terrariumSpec (data (i * 4)) (data (i * 4 + 1)) (data (i * 4 + 2))) := by
  constructor
  · simp [decodeTile]
  · intro i hi
    simp [decodeTile, hi, decodeSample, terrariumSpec]

/-- Witness for C3 on a concrete 1×1 tile whose only pixel is RGBA
`(1, 2, 128, 255)`. -/
theorem C3_terrarium_decode_witness :
    0 < 1 * 1
    ∧ (decodeTile (fun k => [1, 2, 128, 255].getD k 0) 1 1)[0]? =
        some (terrariumSpec 1 2 128) :=
  ⟨by decide, (C3_terrarium_decode (fun k => [1, 2, 128, 255].getD k 0) 1 1).2 0 (by decide)⟩

/-! ## C9 helper lemmas -/

lemma datRows_length (hm : ℕ → ℤ) (width height : ℕ) :
    (datRows hm width height).length = height := by
  simp [datRows]

lemma datRows_getElem (hm : ℕ → ℤ) (width height i : ℕ) (hi : i < height) :
    (datRows hm width height)[i]? =
      some ((List.range width).map (fun x => hm ((height - 1 - i) * width + x))) := by
  have hj : height - 1 - i < height := by omega
  rw [datRows, List.getElem?_map, List.getElem?_reverse (by simpa using hi)]
  simp [hj]

/-- C9: the `.dat` text is the newline-join of rows (plus trailing newline),
line `i` being heightmap row `height - 1 - i` (bottom-up order), each line
holding exactly `width` values, copied unchanged from the heightmap. -/
theorem C9_heightmap_to_dat (hm : ℕ → ℤ) (width height : ℕ) :
    (datRows hm width height).length = height
    ∧ (∀ i < height, (datRows hm width height)[i]? =
        some ((List.range width).map (fun x => hm ((height - 1 - i) * width + x))))
    ∧ (∀ row ∈ datRows hm width height, row.length = width)
    ∧ heightmapToDat hm width height =
        String.intercalate "\n"
          ((datRows hm width height).map (fun row =>
            String.intercalate " " (row.map toString))) ++ "\n" := by
  refine ⟨datRows_length hm width height, ?_, ?_, rfl⟩
  · intro i hi
    exact datRows_getElem hm width height i hi
  · intro row hrow
    rw [datRows] at hrow
    obtain ⟨y, _, rfl⟩ := List.mem_map.mp hrow
    simp

/-- Witness for C9 on a 2×3 heightmap `hm k = k`: line 2 is the top-down
row 0, namely `[hm 0, hm 1]`. -/
theorem C9_heightmap_to_dat_witness :
    2 < 3
    ∧ (datRows (fun k => (k : ℤ)) 2 3)[2]? =
        some ((List.range 2).map (fun x => ((3 - 1 - 2) * 2 + x : ℤ))) := by
  refine ⟨by decide, ?_⟩
  have h := (C9_heightmap_to_dat (fun k => (k : ℤ)) 2 3).2.1 2 (by decide)
  simpa using h

/-! ## Row-major rectangular iteration

`gridFlat f h w` is the flat row-major list produced by the nested loop
`for (y = 0; y < h; y++) for (x = 0; x < w; x++) push (f y x)`. -/

/-- Flat row-major list of a nested `y`/`x` loop. -/
def gridFlat {α : Type} (f : ℕ → ℕ → α) (h w : ℕ) : List α :=
  (List.range h).flatMap fun y => (List.range w).map (f y)

lemma gridFlat_length {α : Type} (f : ℕ → ℕ → α) (h w : ℕ) :
    (gridFlat f h w).length = h * w := by
  induction h with
  | zero => simp [gridFlat]
  | succ n ih =>
    rw [gridFlat, List.range_succ, List.flatMap_append]
    rw [gridFlat] at ih
    simp [ih]
    ring

lemma gridFlat_getElem {α : Type} (f : ℕ → ℕ → α) (h w y x : ℕ)
    (hy : y < h) (hx : x < w) :
    (gridFlat f h w)[y * w + x]? = some (f y x) := by
  induction h with
  | zero => omega
  | succ n ih =>
    rw [gridFlat, List.range_succ, List.flatMap_append]
    rcases Nat.lt_or_ge y n with hyn | hyn
    · rw [List.getElem?_append_left]
      · exact ih hyn
      · rw [show ((List.range n).flatMap fun y => (List.range w).map (f y)) = gridFlat f n w from rfl]
        rw [gridFlat_length]
        calc y * w + x < y * w + w := by omega
          _ ≤ n * w := by nlinarith
    · have hyeq : y = n := by omega
      subst hyeq
      rw [List.getElem?_append_right]
      · rw [show ((List.range y).flatMap fun a => (List.range w).map (f a)) = gridFlat f y w from rfl]
        rw [gridFlat_length]
        simp [hx]
      · rw [show ((List.range y).flatMap fun a => (List.range w).map (f a)) = gridFlat f y w from rfl]
        rw [gridFlat_length]
        omega

lemma gridFlat_congr {α : Type} (f g : ℕ → ℕ → α) (h w : ℕ)
    (hfg : ∀ y < h, ∀ x < w, f y x = g y x) :
    gridFlat f h w = gridFlat g h w := by
  induction h with
  | zero => simp [gridFlat]
  | succ n ih =>
    rw [gridFlat, List.range_succ, List.flatMap_append, gridFlat, List.range_succ,
      List.flatMap_append]
    have h1 : gridFlat f n w = gridFlat g n w :=
      ih fun y hy x hx => hfg y (by omega) x hx
    rw [gridFlat, gridFlat] at h1
    rw [h1]
    congr 1
    simp only [List.flatMap_cons, List.flatMap_nil, List.append_nil]
    exact List.map_congr_left fun x hx => hfg n (by omega) x (List.mem_range.mp hx)

/-! ## Running minimum / maximum (crop loop of `generateHeightmap`)

Source: `let lo = Infinity; let hi = -Infinity; ... if (v < lo) lo = v;
if (v > hi) hi = v;`.  The infinities are the `⊤` of `WithTop ℚ` and the `⊥`
of `WithBot ℚ`. -/

/-- Step of the running-minimum update `if (v < lo) lo = v`. -/
def loStep (lo : WithTop ℚ) (v : ℚ) : WithTop ℚ :=
  if (v : WithTop ℚ) < lo then (v : WithTop ℚ) else lo

/-- Step of the running-maximum update `if (v > hi) hi = v`. -/
def hiStep (hi : WithBot ℚ) (v : ℚ) : WithBot ℚ :=
  if hi < (v : WithBot ℚ) then (v : WithBot ℚ) else hi

/-- The running minimum over the cropped values, seeded with `Infinity`. -/
def foldLo (l : List ℚ) : WithTop ℚ := l.foldl loStep ⊤

/-- The running maximum over the cropped values, seeded with `-Infinity`. -/
def foldHi (l : List ℚ) : WithBot ℚ := l.foldl hiStep ⊥

lemma foldLo_aux_le (l : List ℚ) (acc : WithTop ℚ) :
    l.foldl loStep acc ≤ acc ∧ ∀ v ∈ l, l.foldl loStep acc ≤ (v : WithTop ℚ) := by
  induction l generalizing acc with
  | nil => simp
  | cons a t ih =>
    simp only [List.foldl_cons, List.mem_cons]
    constructor
    · refine le_trans (ih _).1 ?_
      rw [loStep]
      split
      · exact le_of_lt (by assumption)
      · exact le_refl _
    · rintro v (rfl | hv)
      · refine le_trans (ih _).1 ?_
        rw [loStep]
        split
        · exact le_refl _
        · exact le_of_not_lt (by assumption)
      · exact (ih _).2 v hv

lemma foldLo_aux_mem (l : List ℚ) (acc : WithTop ℚ) :
    l.foldl loStep acc = acc ∨ ∃ m ∈ l, l.foldl loStep acc = (m : WithTop ℚ) := by
  induction l generalizing acc with
  | nil => simp
  | cons a t ih =>
    simp only [List.foldl_cons, List.mem_cons]
    rcases ih (loStep acc a) with heq | ⟨m, hm, heq⟩
    · rw [heq, loStep]
      split
      · exact Or.inr ⟨a, Or.inl rfl, rfl⟩
      · exact Or.inl rfl
    · exact Or.inr ⟨m, Or.inr hm, heq⟩

/-- On a non-empty list the running minimum is the true minimum. -/
lemma foldLo_spec (l : List ℚ) (hne : l ≠ []) :
    ∃ m : ℚ, foldLo l = (m : WithTop ℚ) ∧ m ∈ l ∧ ∀ v ∈ l, m ≤ v := by
  obtain ⟨a, t, rfl⟩ := List.exists_cons_of_ne_nil hne
  rcases foldLo_aux_mem (a :: t) ⊤ with heq | ⟨m, hm, heq⟩
  · exfalso
    have hle := (foldLo_aux_le (a :: t) ⊤).2 a (List.mem_cons_self a t)
    rw [show (a :: t).foldl loStep ⊤ = foldLo (a :: t) from rfl] at heq hle
    rw [heq] at hle
    exact (lt_irrefl _ (lt_of_le_of_lt hle (WithTop.coe_lt_top a))).elim
  · rw [show (a :: t).foldl loStep ⊤ = foldLo (a :: t) from rfl] at heq
    refine ⟨m, heq, hm, fun v hv => ?_⟩
    have hle := (foldLo_aux_le (a :: t) ⊤).2 v hv
    rw [show (a :: t).foldl loStep ⊤ = foldLo (a :: t) from rfl, heq] at hle
    exact_mod_cast hle

lemma foldHi_aux_le (l : List ℚ) (acc : WithBot ℚ) :
    acc ≤ l.foldl hiStep acc ∧ ∀ v ∈ l, (v : WithBot ℚ) ≤ l.foldl hiStep acc := by
  induction l generalizing acc with
  | nil => simp
  | cons a t ih =>
    simp only [List.foldl_cons, List.mem_cons]
    constructor
    · refine le_trans ?_ (ih _).1
      rw [hiStep]
      split
      · exact le_of_lt (by assumption)
      · exact le_refl _
    · rintro v (rfl | hv)
      · refine le_trans ?_ (ih _).1
        rw [hiStep]
        split
        · exact le_refl _
        · exact le_of_not_lt (by assumption)
      · exact (ih _).2 v hv

lemma foldHi_aux_mem (l : List ℚ) (acc : WithBot ℚ) :
    l.foldl hiStep acc = acc ∨ ∃ m ∈ l, l.foldl hiStep acc = (m : WithBot ℚ) := by
  induction l generalizing acc with
  | nil => simp
  | cons a t ih =>
    simp only [List.foldl_cons, List.mem_cons]
    rcases ih (hiStep acc a) with heq | ⟨m, hm, heq⟩
    · rw [heq, hiStep]
      split
      · exact Or.inr ⟨a, Or.inl rfl, rfl⟩
      · exact Or.inl rfl
    · exact Or.inr ⟨m, Or.inr hm, heq⟩

/-- On a non-empty list the running maximum is the true maximum. -/
lemma foldHi_spec (l : List ℚ) (hne : l ≠ []) :
    ∃ M : ℚ, foldHi l = (M : WithBot ℚ) ∧ M ∈ l ∧ ∀ v ∈ l, v ≤ M := by
  obtain ⟨a, t, rfl⟩ := List.exists_cons_of_ne_nil hne
  rcases foldHi_aux_mem (a :: t) ⊥ with heq | ⟨m, hm, heq⟩
  · exfalso
    have hle := (foldHi_aux_le (a :: t) ⊥).2 a (List.mem_cons_self a t)
    rw [show (a :: t).foldl hiStep ⊥ = foldHi (a :: t) from rfl] at heq hle
    rw [heq] at hle
    exact (lt_irrefl _ (lt_of_lt_of_le (WithBot.bot_lt_coe a) hle)).elim
  · rw [show (a :: t).foldl hiStep ⊥ = foldHi (a :: t) from rfl] at heq
    refine ⟨m, heq, hm, fun v hv => ?_⟩
    have hle := (foldHi_aux_le (a :: t) ⊥).2 v hv
    rw [show (a :: t).foldl hiStep ⊥ = foldHi (a :: t) from rfl, heq] at hle
    exact_mod_cast hle

/-! ## Cropping (`generateHeightmap`, crop section) -/

/-- Horizontal crop offset: `Math.round(((lon - gridW) / (gridE - gridW)) * fullW)`. -/
def cropX (lon gridW gridE : ℚ) (fullW : ℤ) : ℤ :=
  jsRound ((lon - gridW) / (gridE - gridW) * (fullW : ℚ))

/-- Vertical crop offset: `Math.round(((gridN - lat) / (gridN - gridS)) * fullH)`. -/
def cropY (lat gridN gridS : ℚ) (fullH : ℤ) : ℤ :=
  jsRound ((gridN - lat) / (gridN - gridS) * (fullH : ℚ))

/-- The single-pass extraction loop: row-major values of the `cw × ch`
sub-rectangle of `full` whose top-left corner is `(cl, ct)`. -/
def croppedList (full : ℤ → ℚ) (fullW cl ct cw ch : ℤ) : List ℚ :=
  gridFlat (fun y x => full ((ct + (y : ℤ)) * fullW + (cl + (x : ℤ)))) ch.toNat cw.toNat

/-- C2: the crop offsets equal the rounded linear interpolations of the bbox
edges into the stitched raster; the extraction loop reads exactly the
sub-rectangle `[cropLeft, cropRight) × [cropTop, cropBottom)` of the full
raster (row-major), and the tracked minimum and maximum are the minimum and
maximum over that sub-rectangle only — they depend on no pixel outside it. -/
theorem C2_cropper (full full₂ : ℤ → ℚ)
    (west east south north gridW gridE gridN gridS : ℚ) (fullW fullH : ℤ)
    (cl cr ct cb : ℤ)
    (hcl : cl = cropX west gridW gridE fullW) (hcr : cr = cropX east gridW gridE fullW)
    (hct : ct = cropY north gridN gridS fullH) (hcb : cb = cropY south gridN gridS fullH)
    (hwpos : 0 < cr - cl) (hhpos : 0 < cb - ct) :
    cl = jsRound ((west - gridW) / (gridE - gridW) * (fullW : ℚ))
    ∧ cr = jsRound ((east - gridW) / (gridE - gridW) * (fullW : ℚ))
    ∧ ct = jsRound ((gridN - north) / (gridN - gridS) * (fullH : ℚ))
    ∧ cb = jsRound ((gridN - south) / (gridN - gridS) * (fullH : ℚ))
    ∧ (croppedList full fullW cl ct (cr - cl) (cb - ct)).length =
        (cb - ct).toNat * (cr - cl).toNat
    ∧ (∀ y x : ℕ, y < (cb - ct).toNat → x < (cr - cl).toNat →
        (croppedList full fullW cl ct (cr - cl) (cb - ct))[y * (cr - cl).toNat + x]? =
          some (full ((ct + (y : ℤ)) * fullW + (cl + (x : ℤ)))))
    ∧ (∃ m M : ℚ,
        foldLo (croppedList full fullW cl ct (cr - cl) (cb - ct)) = (m : WithTop ℚ)
        ∧ foldHi (croppedList full fullW cl ct (cr - cl) (cb - ct)) = (M : WithBot ℚ)
        ∧ m ∈ croppedList full fullW cl ct (cr - cl) (cb - ct)
        ∧ M ∈ croppedList full fullW cl ct (cr - cl) (cb - ct)
        ∧ ∀ v ∈ croppedList full fullW cl ct (cr - cl) (cb - ct), m ≤ v ∧ v ≤ M)
    ∧ ((∀ y x : ℕ, y < (cb - ct).toNat → x < (cr - cl).toNat →
          full₂ ((ct + (y : ℤ)) * fullW + (cl + (x : ℤ))) =
            full ((ct + (y : ℤ)) * fullW + (cl + (x : ℤ)))) →
        croppedList full₂ fullW cl ct (cr - cl) (cb - ct) =
          croppedList full fullW cl ct (cr - cl) (cb - ct)) := by
  have hne : croppedList full fullW cl ct (cr - cl) (cb - ct) ≠ [] := by
    intro h
    have hlen := gridFlat_length
      (fun y x => full ((ct + (y : ℤ)) * fullW + (cl + (x : ℤ))))
      (cb - ct).toNat (cr - cl).toNat
    rw [show gridFlat (fun y x => full ((ct + (y : ℤ)) * fullW + (cl + (x : ℤ))))
        (cb - ct).toNat (cr - cl).toNat =
        croppedList full fullW cl ct (cr - cl) (cb - ct) from rfl, h] at hlen
    simp only [List.length_nil] at hlen
    have h1 : 0 < (cr - cl).toNat := by omega
    have h2 : 0 < (cb - ct).toNat := by omega
    have := Nat.mul_pos h2 h1
    omega
  refine ⟨hcl, hcr, hct, hcb, ?_, ?_, ?_, ?_⟩
  · exact gridFlat_length _ _ _
  · intro y x hy hx
    exact gridFlat_getElem _ _ _ y x hy hx
  · obtain ⟨m, hmeq, hmmem, hmle⟩ := foldLo_spec _ hne
    obtain ⟨M, hMeq, hMmem, hMle⟩ := foldHi_spec _ hne
    exact ⟨m, M, hmeq, hMeq, hmmem, hMmem, fun v hv => ⟨hmle v hv, hMle v hv⟩⟩
  · intro hagree
    exact gridFlat_congr _ _ _ _ fun y hy x hx => hagree y x hy hx

/-- Witness for C2 on a concrete 4×4 raster `full i = i` with grid extent
`[0,1] × [0,1]` and bbox `[0, 1/2] × [1/2, 1]`. -/
theorem C2_cropper_witness :
    ((0 : ℤ) = Terrain.cropX 0 0 1 4 ∧ (2 : ℤ) = Terrain.cropX (1/2) 0 1 4
      ∧ (0 : ℤ) = Terrain.cropY 1 1 0 4 ∧ (2 : ℤ) = Terrain.cropY (1/2) 1 0 4
      ∧ (0 : ℤ) < 2 - 0 ∧ (0 : ℤ) < 2 - 0)
    ∧ (croppedList (fun i => (i : ℚ)) 4 0 0 (2 - 0) (2 - 0)).length =
        ((2 : ℤ) - 0).toNat * ((2 : ℤ) - 0).toNat := by
  have h1 : (0 : ℤ) = Terrain.cropX 0 0 1 4 := by norm_num [cropX, jsRound]
  have h2 : (2 : ℤ) = Terrain.cropX (1/2) 0 1 4 := by norm_num [cropX, jsRound]
  have h3 : (0 : ℤ) = Terrain.cropY 1 1 0 4 := by norm_num [cropY, jsRound]
  have h4 : (2 : ℤ) = Terrain.cropY (1/2) 1 0 4 := by norm_num [cropY, jsRound]
  refine ⟨⟨h1, h2, h3, h4, by decide, by decide⟩, ?_⟩
  exact (C2_cropper (fun i => (i : ℚ)) (fun i => (i : ℚ)) 0 (1/2) (1/2) 1 0 1 1 0 4 4
    0 2 0 2 h1 h2 h3 h4 (by decide) (by decide)).2.2.2.2.1

/-! ## Pipeline result assembly (`generateHeightmap` tail) -/

/-- The record returned by `generateHeightmap`. -/
structure HeightmapResult where
  heightmap : List ℤ
  width : ℤ
  height : ℤ
  elevMin : WithTop ℚ
  elevMax : WithBot ℚ

/-- The post-stitch tail of `generateHeightmap`: crop with running min/max,
normalize, resample, and assemble the result record.  The canvas resampling
stage is an opaque parameter `resample` (the spec requires no bit-exact
resampler).  `untop'`/`unbot'` extract the rational min/max for the normalize
arithmetic; they are exact whenever the crop is non-empty, and when it is
empty `normalizeU8` maps the empty list so the extracted value is never used. -/
def generateHeightmapCore (full : ℤ → ℚ)
    (west east south north gridW gridE gridN gridS : ℚ) (fullW fullH : ℤ)
    (outputPx : ℤ) (resample : List ℤ → ℤ → ℤ → ℤ → List ℤ) : HeightmapResult :=
  let cl := cropX west gridW gridE fullW
  let cr := cropX east gridW gridE fullW
  let ct := cropY north gridN gridS fullH
  let cb := cropY south gridN gridS fullH
  let cw := cr - cl
  let ch := cb - ct
  let cropped := croppedList full fullW cl ct cw ch
  let lo := foldLo cropped
  let hi := foldHi cropped
  let u8 := normalizeU8 cropped (lo.untop' 0) (hi.unbot' 0)
  { heightmap := resample u8 cw ch outputPx
    width := outputPx
    height := outputPx
    elevMin := lo
    elevMax := hi }

lemma croppedList_ne_nil (full : ℤ → ℚ) (fullW cl ct cw ch : ℤ)
    (hw : 0 < cw) (hh : 0 < ch) :
    croppedList full fullW cl ct cw ch ≠ [] := by
  intro h
  have hlen := gridFlat_length
    (fun y x => full ((ct + (y : ℤ)) * fullW + (cl + (x : ℤ)))) ch.toNat cw.toNat
  rw [show gridFlat (fun y x => full ((ct + (y : ℤ)) * fullW + (cl + (x : ℤ))))
      ch.toNat cw.toNat = croppedList full fullW cl ct cw ch from rfl, h] at hlen
  simp only [List.length_nil] at hlen
  have h1 : 0 < cw.toNat := by omega
  have h2 : 0 < ch.toNat := by omega
  have := Nat.mul_pos h2 h1
  omega

/-- C7: whenever the crop is non-empty (the documented precondition for the
pipeline to return a meaningful result), the reported `elevMin`/`elevMax` are
finite with `elevMin ≤ elevMax`; they are the minimum and maximum of the
cropped sub-raster (not of the full stitched raster), and they are the
pre-normalization values: the choice of resampling function cannot change
them. -/
theorem C7_elev_range_invariant (full : ℤ → ℚ)
    (west east south north gridW gridE gridN gridS : ℚ) (fullW fullH : ℤ)
    (outputPx : ℤ) (resample : List ℤ → ℤ → ℤ → ℤ → List ℤ)
    (hw : 0 < cropX east gridW gridE fullW - cropX west gridW gridE fullW)
    (hh : 0 < cropY south gridN gridS fullH - cropY north gridN gridS fullH) :
    ∃ lo hi : ℚ,
      (generateHeightmapCore full west east south north gridW gridE gridN gridS
        fullW fullH outputPx resample).elevMin = (lo : WithTop ℚ)
      ∧ (generateHeightmapCore full west east south north gridW gridE gridN gridS
          fullW fullH outputPx resample).elevMax = (hi : WithBot ℚ)
      ∧ lo ≤ hi
      ∧ lo ∈ croppedList full fullW (cropX west gridW gridE fullW)
          (cropY north gridN gridS fullH)
          (cropX east gridW gridE fullW - cropX west gridW gridE fullW)
          (cropY south gridN gridS fullH - cropY north gridN gridS fullH)
      ∧ hi ∈ croppedList full fullW (cropX west gridW gridE fullW)
          (cropY north gridN gridS fullH)
          (cropX east gridW gridE fullW - cropX west gridW gridE fullW)
          (cropY south gridN gridS fullH - cropY north gridN gridS fullH)
      ∧ (∀ v ∈ croppedList full fullW (cropX west gridW gridE fullW)
            (cropY north gridN gridS fullH)
            (cropX east gridW gridE fullW - cropX west gridW gridE fullW)
            (cropY south gridN gridS fullH - cropY north gridN gridS fullH),
          lo ≤ v ∧ v ≤ hi)
      ∧ (∀ resample₂ : List ℤ → ℤ → ℤ → ℤ → List ℤ,
          (generateHeightmapCore full west east south north gridW gridE gridN gridS
            fullW fullH outputPx resample₂).elevMin =
            (generateHeightmapCore full west east south north gridW gridE gridN gridS
              fullW fullH outputPx resample).elevMin
          ∧ (generateHeightmapCore full west east south north gridW gridE gridN gridS
              fullW fullH outputPx resample₂).elevMax =
              (generateHeightmapCore full west east south north gridW gridE gridN gridS
                fullW fullH outputPx resample).elevMax) := by
  have hne := croppedList_ne_nil full fullW (cropX west gridW gridE fullW)
    (cropY north gridN gridS fullH)
    (cropX east gridW gridE fullW - cropX west gridW gridE fullW)
    (cropY south gridN gridS fullH - cropY north gridN gridS fullH) hw hh
  obtain ⟨m, hmeq, hmmem, hmle⟩ := foldLo_spec _ hne
  obtain ⟨M, hMeq, hMmem, hMle⟩ := foldHi_spec _ hne
  refine ⟨m, M, hmeq, hMeq, hmle M hMmem, hmmem, hMmem,
    fun v hv => ⟨hmle v hv, hMle v hv⟩, fun _ => ⟨rfl, rfl⟩⟩

/-- Witness for C7 on the same concrete 4×4 raster as the C2 witness. -/
theorem C7_elev_range_invariant_witness :
    ((0 : ℤ) < Terrain.cropX (1/2) 0 1 4 - Terrain.cropX 0 0 1 4
      ∧ (0 : ℤ) < Terrain.cropY (1/2) 1 0 4 - Terrain.cropY 1 1 0 4)
    ∧ ∃ lo hi : ℚ,
        (generateHeightmapCore (fun i => (i : ℚ)) 0 (1/2) (1/2) 1 0 1 1 0 4 4 2
          (fun u8 _ _ _ => u8)).elevMin = (lo : WithTop ℚ)
        ∧ (generateHeightmapCore (fun i => (i : ℚ)) 0 (1/2) (1/2) 1 0 1 1 0 4 4 2
            (fun u8 _ _ _ => u8)).elevMax = (hi : WithBot ℚ)
        ∧ lo ≤ hi := by
  have hw : (0 : ℤ) < Terrain.cropX (1/2) 0 1 4 - Terrain.cropX 0 0 1 4 := by
    norm_num [cropX, jsRound]
  have hh : (0 : ℤ) < Terrain.cropY (1/2) 1 0 4 - Terrain.cropY 1 1 0 4 := by
    norm_num [cropY, jsRound]
  refine ⟨⟨hw, hh⟩, ?_⟩
  obtain ⟨lo, hi, h1, h2, h3, -⟩ := C7_elev_range_invariant (fun i => (i : ℚ))
    0 (1/2) (1/2) 1 0 1 1 0 4 4 2 (fun u8 _ _ _ => u8) hw hh
  exact ⟨lo, hi, h1, h2, h3⟩

/-! ## Stitching (`generateHeightmap`, download & stitch section)

Source: `fullW = tw * TS`, `fullH = th * TS`, `full = new Float32Array(...)`
(zero-initialized), and per tile
`ox = (tx - txMin) * TS; oy = (ty - tyMin) * TS;
 full[(oy + y) * fullW + (ox + x)] = elev[y * width + x]` with `TS = 256`. -/

/-- `tw` / `th` of `generateHeightmap`: `txMax - txMin + 1`. -/
def tilesAcross (tMin tMax : ℤ) : ℤ := tMax - tMin + 1

/-- `fullW` (and `fullH`) of `generateHeightmap`: tile count times 256. -/
def fullSize (tMin tMax : ℤ) : ℤ := tilesAcross tMin tMax * 256

/-- First membership lemma of `gridFlat`. -/
lemma gridFlat_mem {α : Type} (f : ℕ → ℕ → α) (h w : ℕ) (a : α)
    (ha : a ∈ gridFlat f h w) : ∃ y, y < h ∧ ∃ x, x < w ∧ a = f y x := by
  rw [gridFlat] at ha
  simp only [List.mem_flatMap, List.mem_map, List.mem_range] at ha
  obtain ⟨y, hy, x, hx, heq⟩ := ha
  exact ⟨y, hy, x, hx, heq.symm⟩

lemma gridFlat_mem_intro {α : Type} (f : ℕ → ℕ → α) (h w y x : ℕ)
    (hy : y < h) (hx : x < w) : f y x ∈ gridFlat f h w := by
  have := gridFlat_getElem f h w y x hy hx
  obtain ⟨hlt, heq⟩ := List.getElem?_eq_some.mp this
  rw [← heq]
  exact List.getElem_mem hlt

lemma gridFlat_nodup {α : Type} (f : ℕ → ℕ → α) (h w : ℕ)
    (hinj : ∀ y₁ x₁ y₂ x₂, y₁ < h → x₁ < w → y₂ < h → x₂ < w →
      f y₁ x₁ = f y₂ x₂ → y₁ = y₂ ∧ x₁ = x₂) :
    (gridFlat f h w).Nodup := by
  induction h with
  | zero => simp [gridFlat]
  | succ n ih =>
    rw [gridFlat, List.range_succ, List.flatMap_append]
    rw [List.nodup_append]
    refine ⟨?_, ?_, ?_⟩
    · exact ih fun y₁ x₁ y₂ x₂ h1 h2 h3 h4 =>
        hinj y₁ x₁ y₂ x₂ (by omega) h2 (by omega) h4
    · simp only [List.flatMap_cons, List.flatMap_nil, List.append_nil]
      refine List.Nodup.map_on ?_ (List.nodup_range w)
      intro x₁ hx₁ x₂ hx₂ heq
      exact (hinj n x₁ n x₂ (by omega) (List.mem_range.mp hx₁) (by omega)
        (List.mem_range.mp hx₂) heq).2
    · intro a ha hb
      simp only [List.flatMap_cons, List.flatMap_nil, List.append_nil] at hb
      obtain ⟨y, hy, x, hx, rfl⟩ := gridFlat_mem f n w a ha
      obtain ⟨x', hx', heq⟩ := List.mem_map.mp hb
      have := (hinj n x' y x (by omega) (List.mem_range.mp hx') (by omega) hx heq).1
      omega

/-- The tile iteration of `generateHeightmap`: `ty` outer from `tyMin` to
`tyMax`, `tx` inner from `txMin` to `txMax`, one entry per tile. -/
def tileList (txMin txMax tyMin tyMax : ℤ) : List (ℤ × ℤ) :=
  gridFlat (fun dy dx => (txMin + (dx : ℤ), tyMin + (dy : ℤ)))
    (tilesAcross tyMin tyMax).toNat (tilesAcross txMin txMax).toNat

lemma tileList_mem (txMin txMax tyMin tyMax tx ty : ℤ) :
    (tx, ty) ∈ tileList txMin txMax tyMin tyMax ↔
      txMin ≤ tx ∧ tx ≤ txMax ∧ tyMin ≤ ty ∧ ty ≤ tyMax := by
  constructor
  · intro h
    obtain ⟨dy, hdy, dx, hdx, heq⟩ := gridFlat_mem _ _ _ _ h
    rw [Prod.mk.injEq] at heq
    obtain ⟨h1, h2⟩ := heq
    rw [tilesAcross] at hdy hdx
    omega
  · rintro ⟨h1, h2, h3, h4⟩
    have hdx : (tx - txMin).toNat < (tilesAcross txMin txMax).toNat := by
      rw [tilesAcross]; omega
    have hdy : (ty - tyMin).toNat < (tilesAcross tyMin tyMax).toNat := by
      rw [tilesAcross]; omega
    have := gridFlat_mem_intro (fun dy dx => (txMin + (dx : ℤ), tyMin + (dy : ℤ)))
      (tilesAcross tyMin tyMax).toNat (tilesAcross txMin txMax).toNat
      (ty - tyMin).toNat (tx - txMin).toNat hdy hdx
    simp only at this
    rw [tileList]
    have hx : txMin + ((tx - txMin).toNat : ℤ) = tx := by omega
    have hy : tyMin + ((ty - tyMin).toNat : ℤ) = ty := by omega
    rw [hx, hy] at this
    exact this

lemma tileList_nodup (txMin txMax tyMin tyMax : ℤ) :
    (tileList txMin txMax tyMin tyMax).Nodup := by
  apply gridFlat_nodup
  intro y₁ x₁ y₂ x₂ _ _ _ _ heq
  rw [Prod.mk.injEq] at heq
  omega

/-- The nested per-tile copy loop of the stitch stage: write pixel `(y, x)` of
`elev` to `full[(oy + y) * fullW + (ox + x)]` for all `0 ≤ y, x < 256`. -/
def writeTile (fullW : ℤ) (full : ℤ → ℚ) (ox oy : ℤ) (elev : ℕ → ℚ) : ℤ → ℚ :=
  (gridFlat (fun y x => (y, x)) 256 256).foldl
    (fun f p => Function.update f ((oy + (p.1 : ℤ)) * fullW + (ox + (p.2 : ℤ)))
      (elev (p.1 * 256 + p.2))) full

/-- Stitch the decoded tiles into the zero-initialized full raster, processing
tiles in the given completion order; tile `(tx, ty)` is written at offset
`ox = (tx - txMin) * 256`, `oy = (ty - tyMin) * 256`. -/
def stitch (fullW txMin tyMin : ℤ) (tiles : ℤ × ℤ → ℕ → ℚ)
    (order : List (ℤ × ℤ)) : ℤ → ℚ :=
  order.foldl (fun full t =>
    writeTile fullW full ((t.1 - txMin) * 256) ((t.2 - tyMin) * 256) (tiles t))
    (fun _ => 0)

/-! ### Characterizing folds of point updates -/

lemma foldl_update_of_ne {α : Type} (L : List α) (key : α → ℤ) (val : α → ℚ)
    (f : ℤ → ℚ) (i : ℤ) (hmiss : ∀ a ∈ L, key a ≠ i) :
    (L.foldl (fun g a => Function.update g (key a) (val a)) f) i = f i := by
  induction L generalizing f with
  | nil => rfl
  | cons a t ih =>
    simp only [List.foldl_cons]
    rw [ih _ fun b hb => hmiss b (List.mem_cons_of_mem a hb)]
    exact Function.update_noteq (fun h => hmiss a (List.mem_cons_self a t) h.symm) _ f

lemma foldl_update_of_mem {α : Type} (key : α → ℤ) (val : α → ℚ) (i : ℤ) (v : ℚ) :
    ∀ (L : List α) (f : ℤ → ℚ),
      (∀ a ∈ L, key a = i → val a = v) → (∃ a ∈ L, key a = i) →
      (L.foldl (fun g a => Function.update g (key a) (val a)) f) i = v := by
  intro L
  induction L with
  | nil =>
    intro f _ hmem
    obtain ⟨a, ha, -⟩ := hmem
    cases ha
  | cons a t ih =>
    intro f hval hmem
    simp only [List.foldl_cons]
    by_cases hlater : ∃ b ∈ t, key b = i
    · exact ih _ (fun b hb => hval b (List.mem_cons_of_mem a hb)) hlater
    · push_neg at hlater
      obtain ⟨a', ha', hka'⟩ := hmem
      rcases List.mem_cons.mp ha' with rfl | ha't
      · rw [foldl_update_of_ne t key val _ i hlater, hka',
          Function.update_same, hval a' (List.mem_cons_self a' t) hka']
      · exact absurd hka' (hlater a' ha't)

/-- Mixed-radix injectivity: `a * W + c` with `c, d ∈ [0, W)` determines
`(a, c)`. -/
lemma offset_inj (W a b c d : ℤ) (hW : 0 < W) (hc : 0 ≤ c) (hcW : c < W)
    (hd : 0 ≤ d) (hdW : d < W) (heq : a * W + c = b * W + d) :
    a = b ∧ c = d := by
  have h2 : (a - b) * W = d - c := by linear_combination heq
  rcases lt_trichotomy a b with h | h | h
  · exfalso
    have h3 : (a - b) * W ≤ (-1) * W :=
      mul_le_mul_of_nonneg_right (by omega) hW.le
    linarith
  · subst h
    constructor
    · rfl
    · linarith
  · exfalso
    have h3 : 1 * W ≤ (a - b) * W :=
      mul_le_mul_of_nonneg_right (by omega) hW.le
    linarith

/-- Value written into the tile's own region by `writeTile`. -/
lemma writeTile_in (fullW : ℤ) (full : ℤ → ℚ) (ox oy : ℤ) (elev : ℕ → ℚ)
    (x y : ℕ) (hx : x < 256) (hy : y < 256) (hfw : 256 ≤ fullW) :
    writeTile fullW full ox oy elev ((oy + (y : ℤ)) * fullW + (ox + (x : ℤ))) =
      elev (y * 256 + x) := by
  apply foldl_update_of_mem
  · rintro ⟨py, px⟩ hp heq
    obtain ⟨py2, hpy2, px2, hpx2, hpeq⟩ := gridFlat_mem _ _ _ _ hp
    rw [Prod.mk.injEq] at hpeq
    obtain ⟨h1, h2⟩ := hpeq
    have hpy : py < 256 := by omega
    have hpx : px < 256 := by omega
    have heq2 : ((py : ℤ)) * fullW + (px : ℤ) = ((y : ℤ)) * fullW + (x : ℤ) := by
      have heq3 : (oy + (py : ℤ)) * fullW + (ox + (px : ℤ))
          = (oy + (y : ℤ)) * fullW + (ox + (x : ℤ)) := heq
      linear_combination heq3
    obtain ⟨hyy, hxx⟩ := offset_inj fullW (py : ℤ) (y : ℤ) (px : ℤ) (x : ℤ)
      (by omega) (by omega) (by omega) (by omega) (by omega) heq2
    have hpyy : py = y := by omega
    have hpxx : px = x := by omega
    subst hpyy hpxx
    rfl
  · exact ⟨(y, x), gridFlat_mem_intro _ _ _ y x hy hx, rfl⟩

/-- `writeTile` leaves every cell outside the tile's region unchanged. -/
lemma writeTile_out (fullW : ℤ) (full : ℤ → ℚ) (ox oy : ℤ) (elev : ℕ → ℚ)
    (i : ℤ)
    (hmiss : ∀ y x : ℕ, y < 256 → x < 256 →
      (oy + (y : ℤ)) * fullW + (ox + (x : ℤ)) ≠ i) :
    writeTile fullW full ox oy elev i = full i := by
  apply foldl_update_of_ne
  rintro ⟨py, px⟩ hp
  obtain ⟨py2, hpy2, px2, hpx2, hpeq⟩ := gridFlat_mem _ _ _ _ hp
  rw [Prod.mk.injEq] at hpeq
  obtain ⟨h1, h2⟩ := hpeq
  exact hmiss py px (by omega) (by omega)

/-- A fold of tile writes none of which covers index `i` leaves `i` unchanged. -/
lemma stitch_fold_miss (fullW txMin tyMin : ℤ) (tiles : ℤ × ℤ → ℕ → ℚ) (i : ℤ) :
    ∀ (order : List (ℤ × ℤ)) (f₀ : ℤ → ℚ),
      (∀ t ∈ order, ∀ y x : ℕ, y < 256 → x < 256 →
        ((t.2 - tyMin) * 256 + (y : ℤ)) * fullW + ((t.1 - txMin) * 256 + (x : ℤ)) ≠ i) →
      (order.foldl (fun full t =>
        writeTile fullW full ((t.1 - txMin) * 256) ((t.2 - tyMin) * 256) (tiles t)) f₀) i
        = f₀ i := by
  intro order
  induction order with
  | nil => intro f₀ _; rfl
  | cons t rest ih =>
    intro f₀ hmiss
    simp only [List.foldl_cons]
    rw [ih _ fun b hb => hmiss b (List.mem_cons_of_mem t hb)]
    exact writeTile_out _ _ _ _ _ _ fun y x hy hx =>
      hmiss t (List.mem_cons_self t rest) y x hy hx

/-- Distinct tiles of the grid own disjoint raster regions: the flat index
determines the tile and the pixel. -/
lemma region_index_inj (txMin txMax tyMin tyMax fullW : ℤ)
    (hfw : fullW = (txMax - txMin + 1) * 256)
    (t t' : ℤ × ℤ)
    (hb : txMin ≤ t.1 ∧ t.1 ≤ txMax ∧ tyMin ≤ t.2 ∧ t.2 ≤ tyMax)
    (hb' : txMin ≤ t'.1 ∧ t'.1 ≤ txMax ∧ tyMin ≤ t'.2 ∧ t'.2 ≤ tyMax)
    (y x y' x' : ℕ) (hy : y < 256) (hx : x < 256) (hy' : y' < 256) (hx' : x' < 256)
    (heq : ((t.2 - tyMin) * 256 + (y : ℤ)) * fullW + ((t.1 - txMin) * 256 + (x : ℤ))
         = ((t'.2 - tyMin) * 256 + (y' : ℤ)) * fullW + ((t'.1 - txMin) * 256 + (x' : ℤ))) :
    t = t' ∧ y = y' ∧ x = x' := by
  obtain ⟨hb1, hb2, hb3, hb4⟩ := hb
  obtain ⟨hb1', hb2', hb3', hb4'⟩ := hb'
  have hWpos : 0 < fullW := by rw [hfw]; omega
  have hcol : 0 ≤ (t.1 - txMin) * 256 + (x : ℤ) := by omega
  have hcolW : (t.1 - txMin) * 256 + (x : ℤ) < fullW := by rw [hfw]; omega
  have hcol' : 0 ≤ (t'.1 - txMin) * 256 + (x' : ℤ) := by omega
  have hcolW' : (t'.1 - txMin) * 256 + (x' : ℤ) < fullW := by rw [hfw]; omega
  obtain ⟨hrow, hcoleq⟩ := offset_inj fullW _ _ _ _ hWpos hcol hcolW hcol' hcolW' heq
  have ht1 : t.1 = t'.1 ∧ x = x' := by constructor <;> omega
  have ht2 : t.2 = t'.2 ∧ y = y' := by constructor <;> omega
  exact ⟨Prod.ext ht1.1 ht2.1, ht2.2, ht1.2⟩

/-- The stitched value at the cell owned by grid tile `(tx, ty)`, for any
duplicate-free processing order staying inside the grid. -/
lemma stitch_fold_value (txMin txMax tyMin tyMax fullW : ℤ)
    (hfw : fullW = (txMax - txMin + 1) * 256)
    (tiles : ℤ × ℤ → ℕ → ℚ)
    (tx ty : ℤ) (x y : ℕ) (hx : x < 256) (hy : y < 256) :
    ∀ (order : List (ℤ × ℤ)) (f₀ : ℤ → ℚ),
      (∀ t ∈ order, txMin ≤ t.1 ∧ t.1 ≤ txMax ∧ tyMin ≤ t.2 ∧ t.2 ≤ tyMax) →
      order.Nodup → (tx, ty) ∈ order →
      (order.foldl (fun full t =>
        writeTile fullW full ((t.1 - txMin) * 256) ((t.2 - tyMin) * 256) (tiles t)) f₀)
        (((ty - tyMin) * 256 + (y : ℤ)) * fullW + ((tx - txMin) * 256 + (x : ℤ)))
        = tiles (tx, ty) (y * 256 + x) := by
  intro order
  induction order with
  | nil => intro f₀ _ _ hmem; cases hmem
  | cons t rest ih =>
    intro f₀ hbound hnodup hmem
    simp only [List.foldl_cons]
    rcases List.mem_cons.mp hmem with heq | hrest
    · subst heq
      have hnotin : (tx, ty) ∉ rest := (List.nodup_cons.mp hnodup).1
      have htt := hbound (tx, ty) (List.mem_cons_self (tx, ty) rest)
      have h256 : 256 ≤ fullW := by
        rw [hfw]
        nlinarith [htt.1, htt.2.1]
      rw [stitch_fold_miss fullW txMin tyMin tiles _ rest _ ?_]
      · exact writeTile_in fullW f₀ ((tx - txMin) * 256) ((ty - tyMin) * 256)
          (tiles (tx, ty)) x y hx hy h256
      · intro b hb py px hpy hpx hidx
        have hbb := hbound b (List.mem_cons_of_mem (tx, ty) hb)
        obtain ⟨hteq, -, -⟩ := region_index_inj txMin txMax tyMin tyMax fullW hfw
          b (tx, ty) hbb htt py px y x hpy hpx hy hx hidx
        exact hnotin (hteq ▸ hb)
    · exact ih _ (fun b hb => hbound b (List.mem_cons_of_mem t hb))
        (List.nodup_cons.mp hnodup).2 hrest

/-- C6: the stitched raster is `tilesWide*256` wide and `tilesHigh*256` tall,
and pixel `(x, y)` of decoded tile `(tx, ty)` lands at row
`(ty - tyMin)*256 + y`, column `(tx - txMin)*256 + x` of the buffer. -/
theorem C6_stitcher (txMin txMax tyMin tyMax : ℤ) (tiles : ℤ × ℤ → ℕ → ℚ)
    (tx ty : ℤ) (x y : ℕ)
    (htx1 : txMin ≤ tx) (htx2 : tx ≤ txMax) (hty1 : tyMin ≤ ty) (hty2 : ty ≤ tyMax)
    (hx : x < 256) (hy : y < 256) :
    fullSize txMin txMax = (txMax - txMin + 1) * 256
    ∧ fullSize tyMin tyMax = (tyMax - tyMin + 1) * 256
    ∧ stitch (fullSize txMin txMax) txMin tyMin tiles
        (tileList txMin txMax tyMin tyMax)
        (((ty - tyMin) * 256 + (y : ℤ)) * fullSize txMin txMax
          + ((tx - txMin) * 256 + (x : ℤ)))
        = tiles (tx, ty) (y * 256 + x) := by
  refine ⟨rfl, rfl, ?_⟩
  rw [stitch]
  exact stitch_fold_value txMin txMax tyMin tyMax (fullSize txMin txMax)
    (by rw [fullSize, tilesAcross]) tiles tx ty x y hx hy
    (tileList txMin txMax tyMin tyMax) _
    (fun t ht => (tileList_mem txMin txMax tyMin tyMax t.1 t.2).mp ht)
    (tileList_nodup txMin txMax tyMin tyMax)
    ((tileList_mem txMin txMax tyMin tyMax tx ty).mpr ⟨htx1, htx2, hty1, hty2⟩)

/-- Witness for C6 on a 2×1 grid with tile values `tiles (tx, ty) k = tx`. -/
theorem C6_stitcher_witness :
    ((0 : ℤ) ≤ 1 ∧ (1 : ℤ) ≤ 1 ∧ (0 : ℤ) ≤ 0 ∧ (0 : ℤ) ≤ 0 ∧ 5 < 256 ∧ 7 < 256)
    ∧ stitch (fullSize 0 1) 0 0 (fun t _ => (t.1 : ℚ)) (tileList 0 1 0 0)
        (((0 - 0) * 256 + (7 : ℤ)) * fullSize 0 1 + ((1 - 0) * 256 + (5 : ℤ)))
        = ((1 : ℤ) : ℚ) :=
  ⟨⟨by decide, by decide, by decide, by decide, by decide, by decide⟩,
    (C6_stitcher 0 1 0 0 (fun t _ => (t.1 : ℚ)) 1 0 5 7 (by decide) (by decide)
      (by decide) (by decide) (by decide) (by decide)).2.2⟩

/-- C8: for a fixed assignment of decoded tile contents, the stitched raster
is bit-identical regardless of the order in which the per-tile copies run:
every permutation of the grid's tile list produces the same buffer, because
each tile writes only its own disjoint rectangular region. -/
theorem C8_stitch_determinism (txMin txMax tyMin tyMax : ℤ) (tiles : ℤ × ℤ → ℕ → ℚ)
    (order : List (ℤ × ℤ))
    (hperm : order.Perm (tileList txMin txMax tyMin tyMax)) :
    stitch (fullSize txMin txMax) txMin tyMin tiles order =
      stitch (fullSize txMin txMax) txMin tyMin tiles
        (tileList txMin txMax tyMin tyMax) := by
  have hfw : fullSize txMin txMax = (txMax - txMin + 1) * 256 := by
    rw [fullSize, tilesAcross]
  have hboundL : ∀ t ∈ tileList txMin txMax tyMin tyMax,
      txMin ≤ t.1 ∧ t.1 ≤ txMax ∧ tyMin ≤ t.2 ∧ t.2 ≤ tyMax :=
    fun t ht => (tileList_mem txMin txMax tyMin tyMax t.1 t.2).mp ht
  have hboundO : ∀ t ∈ order,
      txMin ≤ t.1 ∧ t.1 ≤ txMax ∧ tyMin ≤ t.2 ∧ t.2 ≤ tyMax :=
    fun t ht => hboundL t (hperm.mem_iff.mp ht)
  have hnodupO : order.Nodup :=
    hperm.nodup_iff.mpr (tileList_nodup txMin txMax tyMin tyMax)
  funext i
  by_cases hcase : ∃ t ∈ tileList txMin txMax tyMin tyMax, ∃ y : ℕ, ∃ x : ℕ,
      y < 256 ∧ x < 256 ∧
      ((t.2 - tyMin) * 256 + (y : ℤ)) * fullSize txMin txMax
        + ((t.1 - txMin) * 256 + (x : ℤ)) = i
  · obtain ⟨t, htmem, py, px, hpy, hpx, hidx⟩ := hcase
    have htmem' : (t.1, t.2) ∈ tileList txMin txMax tyMin tyMax := by
      rw [Prod.mk.eta]; exact htmem
    have homem : (t.1, t.2) ∈ order := by
      rw [Prod.mk.eta]; exact hperm.mem_iff.mpr htmem
    rw [← hidx, stitch, stitch]
    rw [stitch_fold_value txMin txMax tyMin tyMax (fullSize txMin txMax) hfw tiles
      t.1 t.2 px py hpx hpy order _ hboundO hnodupO homem]
    rw [stitch_fold_value txMin txMax tyMin tyMax (fullSize txMin txMax) hfw tiles
      t.1 t.2 px py hpx hpy (tileList txMin txMax tyMin tyMax) _ hboundL
      (tileList_nodup txMin txMax tyMin tyMax) htmem']
  · push_neg at hcase
    rw [stitch, stitch]
    rw [stitch_fold_miss (fullSize txMin txMax) txMin tyMin tiles i order _
      (fun t ht y x hy hx => hcase t (hperm.mem_iff.mp ht) y x hy hx)]
    rw [stitch_fold_miss (fullSize txMin txMax) txMin tyMin tiles i
      (tileList txMin txMax tyMin tyMax) _ hcase]

/-- Witness for C8: on the 2×1 grid, processing the two tiles in reversed
order yields the same raster. -/
theorem C8_stitch_determinism_witness :
    ([((1 : ℤ), (0 : ℤ)), ((0 : ℤ), (0 : ℤ))].Perm (tileList 0 1 0 0))
    ∧ stitch (fullSize 0 1) 0 0 (fun t _ => (t.1 : ℚ))
        [((1 : ℤ), (0 : ℤ)), ((0 : ℤ), (0 : ℤ))] =
      stitch (fullSize 0 1) 0 0 (fun t _ => (t.1 : ℚ)) (tileList 0 1 0 0) :=
  ⟨by decide, C8_stitch_determinism 0 1 0 0 (fun t _ => (t.1 : ℚ))
    [((1 : ℤ), (0 : ℤ)), ((0 : ℤ), (0 : ℤ))] (by decide)⟩

/-! ## Tile fetching and failure propagation

The network is modelled as a total function from tile coordinates to HTTP
responses.  `fetchAndDecodeTile` checks `res.ok` and fails with the tile's
coordinate and status (the thrown error message is
`Tile z/x/y → status`); `Promise.all` settles to the first rejection, so the
joined fetch phase is `ok` exactly when every tile succeeded and otherwise
propagates a failing tile's error. -/

/-- An HTTP response for one tile request, after image decoding to flat RGBA
bytes. -/
structure TileResponse where
  ok : Bool
  status : ℕ
  data : ℕ → ℕ
  width : ℕ
  height : ℕ

/-- The diagnostic payload of the error thrown on a failed tile fetch:
tile coordinate and HTTP status. -/
structure TileFetchErr where
  z : ℕ
  x : ℤ
  y : ℤ
  status : ℕ

/-- A decoded tile: dense elevation grid plus its dimensions. -/
structure DecodedTile where
  elev : List ℚ
  width : ℕ
  height : ℕ

/-- `fetchAndDecodeTile`: check the response, fail with coordinate and status
on a non-success response, otherwise decode. -/
def fetchAndDecodeTile (net : ℕ → ℤ → ℤ → TileResponse) (z : ℕ) (x y : ℤ) :
    Except TileFetchErr DecodedTile :=
  let res := net z x y
  if res.ok then
    Except.ok ⟨decodeTile res.data res.width res.height, res.width, res.height⟩
  else
    Except.error ⟨z, x, y, res.status⟩

/-- The `Promise.all` join: collect every result, or propagate a rejection. -/
def collectE {ε α β : Type} (f : α → Except ε β) : List α → Except ε (List β)
  | [] => Except.ok []
  | a :: rest =>
    match f a with
    | Except.error e => Except.error e
    | Except.ok b =>
      match collectE f rest with
      | Except.error e => Except.error e
      | Except.ok bs => Except.ok (b :: bs)

/-- The fetch phase of `generateHeightmap`: one fetch per grid tile, all
joined; the stitch input exists only if every tile succeeded. -/
def fetchAllTiles (net : ℕ → ℤ → ℤ → TileResponse) (zoom : ℕ)
    (txMin txMax tyMin tyMax : ℤ) :
    Except TileFetchErr (List ((ℤ × ℤ) × DecodedTile)) :=
  collectE (fun t => (fetchAndDecodeTile net zoom t.1 t.2).map fun d => (t, d))
    (tileList txMin txMax tyMin tyMax)

lemma collectE_error {ε α β : Type} (f : α → Except ε β) :
    ∀ (l : List α), (∃ a ∈ l, ∃ e, f a = Except.error e) →
      ∃ e, collectE f l = Except.error e ∧ ∃ a ∈ l, f a = Except.error e := by
  intro l
  induction l with
  | nil =>
    rintro ⟨a, ha, -⟩
    cases ha
  | cons a rest ih =>
    rintro ⟨b, hb, e, hbe⟩
    rcases hfa : f a with e' | v
    · exact ⟨e', by rw [collectE, hfa], a, List.mem_cons_self a rest, hfa⟩
    · have hbrest : b ∈ rest := by
        rcases List.mem_cons.mp hb with rfl | h
        · rw [hfa] at hbe; cases hbe
        · exact h
      obtain ⟨e2, hrest, a2, ha2, ha2e⟩ := ih ⟨b, hbrest, e, hbe⟩
      refine ⟨e2, ?_, a2, List.mem_cons_of_mem a ha2, ha2e⟩
      rw [collectE, hfa, hrest]

lemma fetchAndDecodeTile_error_iff (net : ℕ → ℤ → ℤ → TileResponse) (z : ℕ)
    (x y : ℤ) (e : TileFetchErr)
    (h : fetchAndDecodeTile net z x y = Except.error e) :
    (net z x y).ok = false
    ∧ e = ⟨z, x, y, (net z x y).status⟩ := by
  rw [fetchAndDecodeTile] at h
  by_cases hok : (net z x y).ok
  · rw [if_pos hok] at h
    cases h
  · rw [if_neg hok] at h
    exact ⟨Bool.not_eq_true _ ▸ hok, (Except.error.injEq _ _).mp h |>.symm⟩

/-- C5: a non-success response makes `fetchAndDecodeTile` fail once, with an
error carrying that tile's coordinate and the response status; any single
failing tile in the grid makes the joined fetch phase fail with such an
error, so no stitched input (and hence no partial heightmap) is produced;
and each grid tile is requested exactly once (no retry). -/
theorem C5_tile_failure (net : ℕ → ℤ → ℤ → TileResponse) (zoom : ℕ)
    (txMin txMax tyMin tyMax tx ty : ℤ)
    (hmem : (tx, ty) ∈ tileList txMin txMax tyMin tyMax)
    (hbad : (net zoom tx ty).ok = false) :
    fetchAndDecodeTile net zoom tx ty =
      Except.error ⟨zoom, tx, ty, (net zoom tx ty).status⟩
    ∧ (∃ e : TileFetchErr,
        fetchAllTiles net zoom txMin txMax tyMin tyMax = Except.error e
        ∧ e.z = zoom
        ∧ (e.x, e.y) ∈ tileList txMin txMax tyMin tyMax
        ∧ (net zoom e.x e.y).ok = false
        ∧ e.status = (net zoom e.x e.y).status)
    ∧ (∀ r, fetchAllTiles net zoom txMin txMax tyMin tyMax ≠ Except.ok r)
    ∧ @List.count (ℤ × ℤ) instBEqOfDecidableEq (tx, ty)
        (tileList txMin txMax tyMin tyMax) = 1 := by
  have hone : fetchAndDecodeTile net zoom tx ty =
      Except.error ⟨zoom, tx, ty, (net zoom tx ty).status⟩ := by
    rw [fetchAndDecodeTile, if_neg (by simp [hbad])]
  have hjoin : ∃ e : TileFetchErr,
      fetchAllTiles net zoom txMin txMax tyMin tyMax = Except.error e
      ∧ e.z = zoom
      ∧ (e.x, e.y) ∈ tileList txMin txMax tyMin tyMax
      ∧ (net zoom e.x e.y).ok = false
      ∧ e.status = (net zoom e.x e.y).status := by
    obtain ⟨e, hcoll, a, ha, hae⟩ := collectE_error
      (fun t => (fetchAndDecodeTile net zoom t.1 t.2).map fun d => (t, d))
      (tileList txMin txMax tyMin tyMax)
      ⟨(tx, ty), hmem, ⟨zoom, tx, ty, (net zoom tx ty).status⟩,
        by simp only [hone]; rfl⟩
    have hae' : fetchAndDecodeTile net zoom a.1 a.2 = Except.error e := by
      rcases hfa : fetchAndDecodeTile net zoom a.1 a.2 with e' | v
      · rw [hfa] at hae
        cases hae
        rfl
      · rw [hfa] at hae
        cases hae
    obtain ⟨hok, rfl⟩ := fetchAndDecodeTile_error_iff net zoom a.1 a.2 e hae'
    exact ⟨_, by rw [fetchAllTiles, hcoll], rfl, by simpa using ha, hok, rfl⟩
  refine ⟨hone, hjoin, ?_, ?_⟩
  · intro r hok
    obtain ⟨e, heq, -⟩ := hjoin
    rw [heq] at hok
    cases hok
  · exact List.count_eq_one_of_mem (tileList_nodup txMin txMax tyMin tyMax) hmem

/-- Witness for C5 on a 2×2 grid whose tile `(1, 0)` returns a 404. -/
theorem C5_tile_failure_witness :
    (((1 : ℤ), (0 : ℤ)) ∈ tileList 0 1 0 1
      ∧ ((fun (_ : ℕ) (x y : ℤ) =>
          if x = 1 ∧ y = 0 then (⟨false, 404, fun _ => 0, 256, 256⟩ : TileResponse)
          else ⟨true, 200, fun _ => 0, 256, 256⟩) 2 1 0).ok = false)
    ∧ ∀ r, fetchAllTiles (fun (_ : ℕ) (x y : ℤ) =>
        if x = 1 ∧ y = 0 then (⟨false, 404, fun _ => 0, 256, 256⟩ : TileResponse)
        else ⟨true, 200, fun _ => 0, 256, 256⟩) 2 0 1 0 1 ≠ Except.ok r := by
  have hmem : ((1 : ℤ), (0 : ℤ)) ∈ tileList 0 1 0 1 := by decide
  have hbad : ((fun (_ : ℕ) (x y : ℤ) =>
      if x = 1 ∧ y = 0 then (⟨false, 404, fun _ => 0, 256, 256⟩ : TileResponse)
      else ⟨true, 200, fun _ => 0, 256, 256⟩) 2 1 0).ok = false := by norm_num
  exact ⟨⟨hmem, hbad⟩,
    (C5_tile_failure _ 2 0 1 0 1 1 0 hmem hbad).2.2.1⟩

/-! ## Web-mercator projection (`lonToX`, `latToY`, `xToLon`, `yToLat`)

The slippy-map tile math of the source, over `ℝ`.  The source passes
`n = 1 << zoom`; these are pure functions of their arguments with no state
and no side effects. -/

/-- `lonToX(lon, n) = Math.floor(((lon + 180) / 360) * n)`. -/
noncomputable def lonToX (lon n : ℝ) : ℤ := ⌊(lon + 180) / 360 * n⌋

/-- `latToY(lat, n)` with `r = lat * π / 180`:
`Math.floor(((1 - Math.log(Math.tan(r) + 1 / Math.cos(r)) / Math.PI) / 2) * n)`. -/
noncomputable def latToY (lat n : ℝ) : ℤ :=
  let r := lat * Real.pi / 180
  ⌊(1 - Real.log (Real.tan r + 1 / Real.cos r) / Real.pi) / 2 * n⌋

/-- `xToLon(x, n) = (x / n) * 360 - 180`. -/
noncomputable def xToLon (x n : ℝ) : ℝ := x / n * 360 - 180

/-- `yToLat(y, n)` with `v = π - 2πy/n`:
`(180 / π) * Math.atan(0.5 * (Math.exp(v) - Math.exp(-v)))`. -/
noncomputable def yToLat (y n : ℝ) : ℝ :=
  let v := Real.pi - 2 * Real.pi * y / n
  180 / Real.pi * Real.arctan (0.5 * (Real.exp v - Real.exp (-v)))

/-- The spec's reference definition of `lonToTileX`. -/
noncomputable def lonToTileXSpec (lon : ℝ) (zoom : ℕ) : ℤ :=
  ⌊(lon + 180) / 360 * 2 ^ zoom⌋

/-- The spec's reference definition of `latToTileY` (web-mercator inverse). -/
noncomputable def latToTileYSpec (lat : ℝ) (zoom : ℕ) : ℤ :=
  ⌊(1 - Real.log (Real.tan (lat * Real.pi / 180)
      + 1 / Real.cos (lat * Real.pi / 180)) / Real.pi) / 2 * 2 ^ zoom⌋

/-- The spec's reference definition of `tileXToLon`. -/
noncomputable def tileXToLonSpec (x : ℝ) (zoom : ℕ) : ℝ := x / 2 ^ zoom * 360 - 180

/-- The spec's reference definition of `tileYToLat`: inverse Gudermannian
`atan(sinh(π - 2πy/2^zoom))`, converted to degrees. -/
noncomputable def tileYToLatSpec (y : ℝ) (zoom : ℕ) : ℝ :=
  180 / Real.pi * Real.arctan (Real.sinh (Real.pi - 2 * Real.pi * y / 2 ^ zoom))

/-- C4: at `n = 2^zoom` the four projection functions of the source agree
with the spec's reference definitions for every real input — in particular
`0.5 * (exp v - exp (-v))` is exactly `sinh v`.  All four are pure
mathematical functions. -/
theorem C4_projection (lon lat x y : ℝ) (zoom : ℕ) :
    lonToX lon (2 ^ zoom) = lonToTileXSpec lon zoom
    ∧ latToY lat (2 ^ zoom) = latToTileYSpec lat zoom
    ∧ xToLon x (2 ^ zoom) = tileXToLonSpec x zoom
    ∧ yToLat y (2 ^ zoom) = tileYToLatSpec y zoom := by
  refine ⟨rfl, rfl, rfl, ?_⟩
  simp only [yToLat, tileYToLatSpec, Real.sinh_eq]
  congr 1
  congr 1
  ring

/-! ## Non-empty tile grid (C10) -/

lemma lonToX_mono (w e N : ℝ) (hwe : w ≤ e) (hN : 0 ≤ N) :
    lonToX w N ≤ lonToX e N := by
  apply Int.floor_le_floor
  apply mul_le_mul_of_nonneg_right ?_ hN
  gcongr

lemma mercStrictMono :
    StrictMonoOn (fun r : ℝ => (1 + Real.sin r) / Real.cos r)
      (Set.Ioo (-(Real.pi / 2)) (Real.pi / 2)) := by
  have hderiv : ∀ r ∈ Set.Ioo (-(Real.pi / 2)) (Real.pi / 2),
      HasDerivAt (fun r : ℝ => (1 + Real.sin r) / Real.cos r)
        ((1 + Real.sin r) / Real.cos r ^ 2) r := by
    intro r hr
    have hcos : 0 < Real.cos r := Real.cos_pos_of_mem_Ioo hr
    have h1 : HasDerivAt (fun r : ℝ => 1 + Real.sin r) (Real.cos r) r :=
      (Real.hasDerivAt_sin r).const_add 1
    have h2 : HasDerivAt Real.cos (-Real.sin r) r := Real.hasDerivAt_cos r
    have h3 := h1.div h2 (ne_of_gt hcos)
    convert h3 using 1
    have hpyth := Real.sin_sq_add_cos_sq r
    field_simp
    ring_nf
    nlinarith [hpyth]
  have hcont : ContinuousOn (fun r : ℝ => (1 + Real.sin r) / Real.cos r)
      (Set.Ioo (-(Real.pi / 2)) (Real.pi / 2)) :=
    fun r hr => ((hderiv r hr).differentiableAt).continuousAt.continuousWithinAt
  apply strictMonoOn_of_deriv_pos (convex_Ioo _ _) hcont
  intro r hr
  rw [(isOpen_Ioo).interior_eq] at hr
  rw [(hderiv r hr).deriv]
  have hcos : 0 < Real.cos r := Real.cos_pos_of_mem_Ioo hr
  have hsin : -1 < Real.sin r := by
    have h1 : Real.sin (-(Real.pi / 2)) < Real.sin r := by
      apply Real.strictMonoOn_sin ?_ ?_ hr.1
      · exact ⟨le_refl _, by linarith [Real.pi_pos]⟩
      · exact ⟨hr.1.le, hr.2.le⟩
    rw [Real.sin_neg, Real.sin_pi_div_two] at h1
    linarith
  exact div_pos (by linarith) (by positivity)

lemma tan_add_sec (r : ℝ) :
    Real.tan r + 1 / Real.cos r = (1 + Real.sin r) / Real.cos r := by
  rw [Real.tan_eq_sin_div_cos, div_add_div_same, add_comm]

lemma sin_gt_neg_one (r : ℝ) (hr : r ∈ Set.Ioo (-(Real.pi / 2)) (Real.pi / 2)) :
    -1 < Real.sin r := by
  have h1 : Real.sin (-(Real.pi / 2)) < Real.sin r := by
    apply Real.strictMonoOn_sin ?_ ?_ hr.1
    · exact ⟨le_refl _, by linarith [Real.pi_pos]⟩
    · exact ⟨hr.1.le, hr.2.le⟩
  rw [Real.sin_neg, Real.sin_pi_div_two] at h1
  linarith

lemma deg_mem_Ioo (s : ℝ) (h1 : -90 < s) (h2 : s < 90) :
    s * Real.pi / 180 ∈ Set.Ioo (-(Real.pi / 2)) (Real.pi / 2) := by
  have hpi := Real.pi_pos
  constructor
  · have h : (-90 : ℝ) * Real.pi / 180 < s * Real.pi / 180 := by
      apply div_lt_div_of_pos_right ?_ (by norm_num)
      exact mul_lt_mul_of_pos_right (by linarith) hpi
    calc -(Real.pi / 2) = (-90 : ℝ) * Real.pi / 180 := by ring
      _ < _ := h
  · have h : s * Real.pi / 180 < (90 : ℝ) * Real.pi / 180 := by
      apply div_lt_div_of_pos_right ?_ (by norm_num)
      exact mul_lt_mul_of_pos_right (by linarith) hpi
    calc s * Real.pi / 180 < (90 : ℝ) * Real.pi / 180 := h
      _ = Real.pi / 2 := by ring

/-- `latToY` is antitone in the latitude over `(-90, 90)` degrees. -/
lemma latToY_antitone (s t N : ℝ) (hs : -90 < s) (hsn : s ≤ t) (hn : t < 90)
    (hN : 0 ≤ N) : latToY t N ≤ latToY s N := by
  rcases eq_or_lt_of_le hsn with rfl | hlt
  · exact le_refl _
  have hpi := Real.pi_pos
  have hrs := deg_mem_Ioo s hs (by linarith)
  have hrn := deg_mem_Ioo t (by linarith) hn
  have hrlt : s * Real.pi / 180 < t * Real.pi / 180 := by
    apply div_lt_div_of_pos_right ?_ (by norm_num)
    exact mul_lt_mul_of_pos_right hlt hpi
  have hgs : 0 < (1 + Real.sin (s * Real.pi / 180)) / Real.cos (s * Real.pi / 180) :=
    div_pos (by linarith [sin_gt_neg_one _ hrs]) (Real.cos_pos_of_mem_Ioo hrs)
  have hgn : 0 < (1 + Real.sin (t * Real.pi / 180)) / Real.cos (t * Real.pi / 180) :=
    div_pos (by linarith [sin_gt_neg_one _ hrn]) (Real.cos_pos_of_mem_Ioo hrn)
  have hmono := mercStrictMono hrs hrn hrlt
  have hlog : Real.log ((1 + Real.sin (s * Real.pi / 180)) / Real.cos (s * Real.pi / 180))
      ≤ Real.log ((1 + Real.sin (t * Real.pi / 180)) / Real.cos (t * Real.pi / 180)) :=
    (Real.log_le_log_iff hgs hgn).mpr (le_of_lt hmono)
  rw [latToY, latToY, tan_add_sec, tan_add_sec]
  apply Int.floor_le_floor
  apply mul_le_mul_of_nonneg_right ?_ hN
  have hdiv :
      Real.log ((1 + Real.sin (s * Real.pi / 180)) / Real.cos (s * Real.pi / 180)) / Real.pi
      ≤ Real.log ((1 + Real.sin (t * Real.pi / 180)) / Real.cos (t * Real.pi / 180)) / Real.pi :=
    by gcongr
  linarith

/-- C10 (amended): for a bounding box with `west < east`, `south < north` and
both latitudes strictly inside the web-mercator domain `(-90, 90)`, and any
positive zoom, the monotonicity of the projections makes the tile grid
non-empty: `txMin ≤ txMax`, `tyMin ≤ tyMax`, at least one tile row and
column, a non-empty tile fetch list, and a stitched buffer of positive
dimensions.  The latitude restriction is necessary: see the counterexample
at `north = 180`. -/
theorem C10_grid_nonempty (west east south north : ℝ) (zoom : ℕ)
    (hwe : west < east) (hsn : south < north)
    (hs : -90 < south) (hn : north < 90) (_hz : 1 ≤ zoom) :
    lonToX west (2 ^ zoom) ≤ lonToX east (2 ^ zoom)
    ∧ latToY north (2 ^ zoom) ≤ latToY south (2 ^ zoom)
    ∧ 1 ≤ tilesAcross (lonToX west (2 ^ zoom)) (lonToX east (2 ^ zoom))
    ∧ 1 ≤ tilesAcross (latToY north (2 ^ zoom)) (latToY south (2 ^ zoom))
    ∧ 0 < fullSize (lonToX west (2 ^ zoom)) (lonToX east (2 ^ zoom))
    ∧ 0 < fullSize (latToY north (2 ^ zoom)) (latToY south (2 ^ zoom))
    ∧ tileList (lonToX west (2 ^ zoom)) (lonToX east (2 ^ zoom))
        (latToY north (2 ^ zoom)) (latToY south (2 ^ zoom)) ≠ [] := by
  have hN : (0 : ℝ) ≤ 2 ^ zoom := by positivity
  have hx : lonToX west (2 ^ zoom) ≤ lonToX east (2 ^ zoom) :=
    lonToX_mono west east (2 ^ zoom) hwe.le hN
  have hy : latToY north (2 ^ zoom) ≤ latToY south (2 ^ zoom) :=
    latToY_antitone south north (2 ^ zoom) hs hsn.le hn hN
  have htx : 1 ≤ tilesAcross (lonToX west (2 ^ zoom)) (lonToX east (2 ^ zoom)) := by
    rw [tilesAcross]; omega
  have hty : 1 ≤ tilesAcross (latToY north (2 ^ zoom)) (latToY south (2 ^ zoom)) := by
    rw [tilesAcross]; omega
  refine ⟨hx, hy, htx, hty, ?_, ?_, ?_⟩
  · rw [fullSize]; omega
  · rw [fullSize]; omega
  · intro hnil
    have hlen := gridFlat_length
      (fun dy dx => (lonToX west (2 ^ zoom) + (dx : ℤ), latToY north (2 ^ zoom) + (dy : ℤ)))
      (tilesAcross (latToY north (2 ^ zoom)) (latToY south (2 ^ zoom))).toNat
      (tilesAcross (lonToX west (2 ^ zoom)) (lonToX east (2 ^ zoom))).toNat
    rw [show gridFlat
        (fun dy dx => (lonToX west (2 ^ zoom) + (dx : ℤ), latToY north (2 ^ zoom) + (dy : ℤ)))
        (tilesAcross (latToY north (2 ^ zoom)) (latToY south (2 ^ zoom))).toNat
        (tilesAcross (lonToX west (2 ^ zoom)) (lonToX east (2 ^ zoom))).toNat
      = tileList (lonToX west (2 ^ zoom)) (lonToX east (2 ^ zoom))
          (latToY north (2 ^ zoom)) (latToY south (2 ^ zoom)) from rfl, hnil] at hlen
    simp only [List.length_nil] at hlen
    have h1 : 0 < (tilesAcross (lonToX west (2 ^ zoom)) (lonToX east (2 ^ zoom))).toNat := by
      omega
    have h2 : 0 < (tilesAcross (latToY north (2 ^ zoom)) (latToY south (2 ^ zoom))).toNat := by
      omega
    have := Nat.mul_pos h2 h1
    omega

/-- `latToY` at latitude 180° and `n = 2`: the model's junk values
(`tan π = 0`, `1 / cos π = -1`, `log (-1) = 0`) give tile row 1. -/
lemma latToY_at_180 : latToY 180 ((2 : ℝ) ^ (1 : ℕ)) = 1 := by
  have hr : (180 : ℝ) * Real.pi / 180 = Real.pi := by ring
  simp only [latToY, hr, Real.tan_pi, Real.cos_pi]
  have h1 : (0 : ℝ) + 1 / (-1 : ℝ) = -(1 : ℝ) := by norm_num
  rw [h1, Real.log_neg_eq_log, Real.log_one]
  norm_num

/-- `latToY` at latitude 45° and `n = 2`: since
`tan (π/4) + 1 / cos (π/4) = 1 + √2` and `0 < log (1 + √2) < π`, the tile
row is 0. -/
lemma latToY_at_45 : latToY 45 ((2 : ℝ) ^ (1 : ℕ)) = 0 := by
  have hr : (45 : ℝ) * Real.pi / 180 = Real.pi / 4 := by ring
  simp only [latToY, hr, Real.tan_pi_div_four, Real.cos_pi_div_four]
  have hs2 : (0 : ℝ) < Real.sqrt 2 := Real.sqrt_pos.mpr (by norm_num)
  have hsum : (1 : ℝ) + 1 / (Real.sqrt 2 / 2) = 1 + Real.sqrt 2 := by
    rw [one_div_div, Real.div_sqrt]
  rw [hsum]
  have hpi := Real.pi_pos
  have hlogpos : 0 < Real.log (1 + Real.sqrt 2) := Real.log_pos (by linarith)
  have hlt : Real.log (1 + Real.sqrt 2) < Real.pi := by
    have hs : Real.sqrt 2 < 2 := by
      nlinarith [Real.sq_sqrt (by norm_num : (0 : ℝ) ≤ 2), hs2]
    have he3 : (4 : ℝ) ≤ Real.exp 3 := by
      have := Real.add_one_le_exp (3 : ℝ)
      linarith
    have hepi : Real.exp 3 ≤ Real.exp Real.pi :=
      Real.exp_le_exp.mpr (by linarith [Real.pi_gt_three])
    calc Real.log (1 + Real.sqrt 2) < Real.log (Real.exp Real.pi) :=
        Real.log_lt_log (by linarith) (by linarith)
      _ = Real.pi := Real.log_exp _
  have heq : ((1 : ℝ) - Real.log (1 + Real.sqrt 2) / Real.pi) / 2 * 2 ^ 1
      = 1 - Real.log (1 + Real.sqrt 2) / Real.pi := by ring
  rw [show ((2 : ℝ) ^ (1 : ℕ)) = 2 ^ 1 from rfl, heq, Int.floor_eq_zero_iff]
  constructor
  · have h2 : Real.log (1 + Real.sqrt 2) / Real.pi < 1 := (div_lt_one hpi).mpr hlt
    linarith
  · have h3 : 0 < Real.log (1 + Real.sqrt 2) / Real.pi := div_pos hlogpos hpi
    linarith

/-- C10 counterexample: the claim as stated — quantified over every bounding
box with only `west < east` and `south < north` — fails on the code.  At
`west = 0 < east = 1`, `south = 45 < north = 180`, `zoom = 1`, the latitude
`180` lies outside the web-mercator domain: `latToY` is not antitone there
(`tyMin = latToY 180 = 1 > 0 = latToY 45 = tyMax`), the tile grid is empty
(`tilesHigh = 0`), and no tile fetch is issued (the JavaScript original takes
`Math.log` of a negative number here, `tyMin` is `NaN`, and its tile loop
never runs either). -/
theorem C10_grid_nonempty_counterexample :
    (0 : ℝ) < 1 ∧ (45 : ℝ) < 180 ∧ 0 < (1 : ℕ)
    ∧ latToY 180 ((2 : ℝ) ^ (1 : ℕ)) = 1
    ∧ latToY 45 ((2 : ℝ) ^ (1 : ℕ)) = 0
    ∧ ¬(latToY 180 ((2 : ℝ) ^ (1 : ℕ)) ≤ latToY 45 ((2 : ℝ) ^ (1 : ℕ)))
    ∧ tilesAcross (latToY 180 ((2 : ℝ) ^ (1 : ℕ))) (latToY 45 ((2 : ℝ) ^ (1 : ℕ))) = 0
    ∧ tileList (lonToX 0 ((2 : ℝ) ^ (1 : ℕ))) (lonToX 1 ((2 : ℝ) ^ (1 : ℕ)))
        (latToY 180 ((2 : ℝ) ^ (1 : ℕ))) (latToY 45 ((2 : ℝ) ^ (1 : ℕ))) = [] := by
  refine ⟨by norm_num, by norm_num, by norm_num, latToY_at_180, latToY_at_45, ?_, ?_, ?_⟩
  · rw [latToY_at_180, latToY_at_45]
    decide
  · rw [latToY_at_180, latToY_at_45, tilesAcross]
    decide
  · rw [tileList, latToY_at_180, latToY_at_45]
    rfl

/-- Witness for C10 at the concrete bbox `[0, 1] × [0, 45]`, zoom 1. -/
theorem C10_grid_nonempty_witness :
    ((0 : ℝ) < 1 ∧ (0 : ℝ) < 45 ∧ (-90 : ℝ) < 0 ∧ (45 : ℝ) < 90 ∧ 1 ≤ 1)
    ∧ tileList (lonToX 0 (2 ^ 1)) (lonToX 1 (2 ^ 1))
        (latToY 45 (2 ^ 1)) (latToY 0 (2 ^ 1)) ≠ [] :=
  ⟨⟨by norm_num, by norm_num, by norm_num, by norm_num, le_refl 1⟩,
    (C10_grid_nonempty 0 1 0 45 1 (by norm_num) (by norm_num) (by norm_num)
      (by norm_num) (le_refl 1)).2.2.2.2.2.2⟩

end Terrain
